import Mathlib

/-!
Verification of `mlflow/store/artifact/azure_data_lake_artifact_repo.py`.

Python strings are embedded as `List Char` (Python indexing/slicing is by
code point, matching `List Char` operations).  Stateful backend calls are
embedded as explicit data: the backend listing response is an input list,
and uploads are recorded as a list of operations.
-/

/-- A Python string, embedded as its list of code points. -/
abbrev Str := List Char

/-- `posixpath.join(a, b)` (CPython `posixpath.join` with `sep = "/"`):
if `b` starts with the separator the result is `b`; if `a` is empty or
ends with the separator the result is `a ++ b`; otherwise `a ++ "/" ++ b`. -/
def posixJoin (a b : Str) : Str :=
  if b.head? = some '/' then b
  else if a = [] then a ++ b
  else if a.getLast? = some '/' then a ++ b
  else a ++ '/' :: b

/-- The `dest_path = self.base...; if path: dest_path = posixpath.join(dest_path, path)`
pattern shared by `log_artifacts` and `list_artifacts`: Python `if path:`
skips the join when `path` is `None` or empty. -/
def joinIfTruthy (base : Str) (p : Option Str) : Str :=
  match p with
  | some q => if q ≠ [] then posixJoin base q else base
  | none => base

/-- Split a string at every separator character, keeping empty groups
(the groups of `s.split("/")`). -/
def splitSlash : Str → List Str
  | [] => [[]]
  | '/' :: cs => [] :: splitSlash cs
  | c :: cs =>
    match splitSlash cs with
    | [] => [[c]]
    | g :: gs => (c :: g) :: gs

/-- The nonempty components of a slash-separated path:
`[x for x in s.split(sep) if x]` as used by `posixpath.relpath`. -/
def splitComps (s : Str) : List Str :=
  (splitSlash s).filter (fun g => g ≠ [])

/-- `os.curdir` = `"."`. -/
def curdir : Str := ['.']

/-- `os.pardir` = `".."`. -/
def pardir : Str := ['.', '.']

/-- One step of absolute-path component normalisation: `.` components
are dropped and `..` pops the previous component (or is dropped at the
root). -/
def normStep (acc : List Str) (c : Str) : List Str :=
  if c = curdir then acc
  else if c = pardir then acc.dropLast
  else acc ++ [c]

/-- Normalisation of the component list of an absolute posix path, as done
by `posixpath.normpath` inside `posixpath.abspath`. -/
def normAbs (cs : List Str) : List Str :=
  cs.foldl normStep []

/-- `len(genericpath.commonprefix([a, b]))`: the length of the longest
common prefix of the two component lists. -/
def commonPrefixLen : List Str → List Str → Nat
  | a :: as, b :: bs => if a = b then commonPrefixLen as bs + 1 else 0
  | _, _ => 0

/-- `posixpath.join(*comps)` over path components none of which starts
with a slash: intercalate a single separator. -/
def joinPath : List Str → Str
  | [] => []
  | [c] => c
  | c :: cs => c ++ '/' :: joinPath cs

/-- `posixpath.relpath(path, start)`.  Raises `ValueError` (here: `none`)
on an empty `path`.  Both arguments go through `posixpath.abspath`, which
prefixes the current working directory; in this adapter both arguments are
storage-account paths, so the model takes the root as the working
directory and `abspath` reduces to component normalisation. -/
def relpath (path start : Str) : Option Str :=
  if path = [] then none
  else
    let path_list := normAbs (splitComps path)
    let start_list := normAbs (splitComps start)
    let i := commonPrefixLen start_list path_list
    let rel_list := List.replicate (start_list.length - i) pardir ++ path_list.drop i
    if rel_list = [] then some curdir else some (joinPath rel_list)

/-- Python string comparison `a <= b`: lexicographic on code points. -/
def strLe : Str → Str → Bool
  | [], _ => true
  | _ :: _, [] => false
  | a :: as, b :: bs => if a < b then true else if b < a then false else strLe as bs

/-- The fixed ABFSS authority domain, `".dfs.core.windows.net"`, written
with its leading dot exposed. -/
def domainDotTail : Str := "dfs.core.windows.net".toList

def domainSfx : Str := '.' :: domainDotTail

/-- The error kinds raised by the adapter.  `notAbfssScheme` and
`invalidAbfssAuthority` are the two `MlflowException`s of
`_parse_abfss_uri`; `valueError` is `posixpath.relpath`'s failure on an
empty path; `notImplemented` is `NotImplementedError`, the spec's
`UnsupportedOperation`. -/
inductive RepoError where
  | notAbfssScheme
  | invalidAbfssAuthority
  | valueError
  | notImplemented
  deriving DecidableEq, Repr

/-- The components of `urllib.parse.urlparse(uri)` that
`_parse_abfss_uri` reads.  URI-string parsing itself is the standard
library's, an external collaborator; the adapter consumes the parsed
`scheme`, `netloc` and `path` fields. -/
structure ParsedURI where
  scheme : Str
  netloc : Str
  path : Str
  deriving DecidableEq, Repr

/-- `re.match(r"([^@]+)@([^.]+)\.dfs\.core\.windows\.net", netloc)`,
returning the two capture groups.  `re.match` anchors only at the start:
group 1 is the maximal nonempty leading run of non-`@` characters
followed by a literal `@` (greedy `[^@]+` cannot backtrack into a
successful match because the next pattern char `@` is excluded from the
class), group 2 likewise the maximal nonempty run of non-`.` characters,
and the rest of the string need only start with the literal domain. -/
def reMatchAbfss (netloc : Str) : Option (Str × Str) :=
  let g1 := netloc.takeWhile (fun c => c ≠ '@')
  match netloc.dropWhile (fun c => c ≠ '@') with
  | '@' :: r2 =>
    if g1 = [] then none
    else
      let g2 := r2.takeWhile (fun c => c ≠ '.')
      let r3 := r2.dropWhile (fun c => c ≠ '.')
      if g2 = [] then none
      else if domainSfx.isPrefixOf r3 then some (g1, g2) else none
  | _ => none

/-- `_parse_abfss_uri`: checks the scheme, matches the authority against
the ABFSS pattern, and strips a single leading slash from the path. -/
def parse_abfss_uri (uri : ParsedURI) : Except RepoError (Str × Str × Str) :=
  if uri.scheme ≠ "abfss".toList then .error .notAbfssScheme
  else
    match reMatchAbfss uri.netloc with
    | none => .error .invalidAbfssAuthority
    | some (filesystem, account_name) =>
      let path := uri.path
      let path := if path.head? = some '/' then path.drop 1 else path
      .ok (filesystem, account_name, path)

/-- Modelled from the spec: the one recognized configuration option, the
upload/download timeout in seconds, read once at construction.
`MLFLOW_ARTIFACT_UPLOAD_DOWNLOAD_TIMEOUT.get()` (declared outside this
module) yields `none` when the variable is unset, else its integer value;
the source then computes `get() or 600`, and Python `or` falls through to
the default exactly on the falsy values `None` and `0`. -/
def resolveWriteTimeout (cfg : Option Int) : Int :=
  match cfg with
  | none => 600
  | some v => if v = 0 then 600 else v

/-- The state an `AzureDataLakeArtifactRepository` holds after
`__init__` (the backend client objects are external handles derived from
`account_name` and `filesystem` and carry no further state of their own). -/
structure AzureDataLakeArtifactRepository where
  write_timeout : Int
  filesystem : Str
  account_name : Str
  base_data_lake_directory : Str
  deriving DecidableEq, Repr

/-- `AzureDataLakeArtifactRepository.__init__`: resolves the timeout,
parses the artifact URI (propagating its failure), and stores the parsed
path as `base_data_lake_directory`. -/
def repoInit (cfg : Option Int) (uri : ParsedURI) :
    Except RepoError AzureDataLakeArtifactRepository :=
  match parse_abfss_uri uri with
  | .error e => .error e
  | .ok (filesystem, account_name, path) =>
    .ok ⟨resolveWriteTimeout cfg, filesystem, account_name, path⟩

/-- One entry of the backend's `get_paths` response: its absolute path
`name`, its `is_directory` flag, and the service-reported
`content_length` (the service reports a byte length for every file
entry; the field is never read for directory entries). -/
structure PathProps where
  name : Str
  is_directory : Bool
  content_length : Nat
  deriving DecidableEq, Repr

/-- `mlflow.entities.FileInfo` (declared outside this module), the
caller-facing listing entry: relative path, directory flag, optional
file size — the spec's `ArtifactEntry`. -/
structure FileInfo where
  path : Str
  is_dir : Bool
  file_size : Option Nat
  deriving DecidableEq, Repr

/-- The `FileInfo` built for one listing entry from its base-relative
path `p`: the directory branch strips one trailing slash from `p` and
reports no size, the file branch reports the content length. -/
def infoOf (r : PathProps) (p : Str) : FileInfo :=
  if r.is_directory then
    ⟨if p.getLast? = some '/' then p.dropLast else p, true, none⟩
  else ⟨p, false, some r.content_length⟩

/-- The `for result in self.fs_client.get_paths(...)` loop of
`list_artifacts`: entries whose `name` equals the directory being listed
are skipped; every other entry contributes `infoOf` of its
base-relative path.  A `ValueError` from `posixpath.relpath` aborts the
whole call. -/
def buildInfos (base target : Str) : List PathProps → Except RepoError (List FileInfo)
  | [] => .ok []
  | r :: rs =>
    if target = r.name then buildInfos base target rs
    else
      match relpath r.name base with
      | none => .error .valueError
      | some p =>
        match buildInfos base target rs with
        | .error e => .error e
        | .ok infos => .ok (infoOf r p :: infos)

/-- The ordering `sorted(infos, key=lambda f: f.path)` sorts by. -/
def fileInfoLe (a b : FileInfo) : Prop := strLe a.path b.path = true

instance : DecidableRel fileInfoLe := fun a b => by
  unfold fileInfoLe; infer_instance

/-- The final check of `list_artifacts`:
`(len(infos) == 1) and not infos[0].is_dir and (infos[0].path == rel_path)`. -/
def singleFileCheck (infos : List FileInfo) (rel_path : Str) : Bool :=
  match infos with
  | [i] => !i.is_dir && decide (i.path = rel_path)
  | _ => false

/-- `AzureDataLakeArtifactRepository.list_artifacts(path)`, with the
backend response passed in as `listing`.  Computes the directory to
list (`if path:` join), builds the entries, returns the empty list when
the listing addressed a single file, and otherwise the entries sorted by
path (Python's `sorted` is a stable comparison sort; any stable sort,
here insertion sort, returns the same list). -/
def list_artifacts (base : Str) (path : Option Str) (listing : List PathProps) :
    Except RepoError (List FileInfo) :=
  let directory_to_list := joinIfTruthy base path
  match buildInfos base directory_to_list listing with
  | .error e => .error e
  | .ok infos =>
    let rel_path := directory_to_list.drop (base.length + 1)
    if singleFileCheck infos rel_path then .ok []
    else .ok (List.insertionSort fileInfoLe infos)

/-- One regular file produced by `os.walk(local_dir)`: `rel_root` is
`os.path.relpath(root, local_dir)` for the directory the walk visited
(`"."` for `local_dir` itself), `name` one element of that directory's
file list, and `size` is `os.path.getsize` of the file. -/
structure LocalFile where
  rel_root : Str
  name : Str
  size : Nat
  deriving DecidableEq, Repr

/-- A write issued to the backend: `create_file` on a file client (no
data transfer) or `upload_data(data=..., overwrite=...)`. -/
inductive DataLakeOp where
  | create_file (path : Str)
  | upload_data (path : Str) (overwrite : Bool)
  deriving DecidableEq, Repr

/-- The backend path a `DataLakeOp` writes to. -/
def DataLakeOp.path : DataLakeOp → Str
  | create_file p => p
  | upload_data p _ => p

/-- `AzureDataLakeArtifactRepository.log_artifacts(local_dir,
artifact_path)`, with the walk of `local_dir` passed in as `files`.
The directory client is rooted at `base` joined with `artifact_path`
(when truthy); each file's client is obtained at
`posixpath.join(rel_path, f)` below it, so a file's absolute backend
path is the directory-client path joined with that name.  Empty files
are created, non-empty files uploaded with `overwrite=True`. -/
def log_artifacts (base : Str) (artifact_path : Option Str) (files : List LocalFile) :
    List DataLakeOp :=
  let dest_path := joinIfTruthy base artifact_path
  files.map fun f =>
    let client_path := posixJoin dest_path (posixJoin f.rel_root f.name)
    if f.size = 0 then .create_file client_path else .upload_data client_path true

/-- `AzureDataLakeArtifactRepository.log_artifact`: unconditionally
`raise NotImplementedError(...)`. -/
def log_artifact (_repo : AzureDataLakeArtifactRepository) (_local_file : Str)
    (_artifact_path : Option Str) : Except RepoError Unit :=
  .error .notImplemented

/-- `AzureDataLakeArtifactRepository.delete_artifacts`: unconditionally
`raise NotImplementedError(...)`. -/
def delete_artifacts (_repo : AzureDataLakeArtifactRepository)
    (_artifact_path : Option Str) : Except RepoError Unit :=
  .error .notImplemented

/-! ### Helper lemmas about the string primitives -/

theorem takeWhile_append_cons (p : Char → Bool) (a : Str) (c : Char) (b : Str)
    (ha : ∀ x ∈ a, p x = true) (hc : p c = false) :
    (a ++ c :: b).takeWhile p = a ∧ (a ++ c :: b).dropWhile p = c :: b := by
  induction a with
  | nil => simp [List.takeWhile_cons, List.dropWhile_cons, hc]
  | cons x xs ih =>
    have hx : p x = true := ha x (by simp)
    have ih2 := ih (fun y hy => ha y (by simp [hy]))
    simp [List.takeWhile_cons, List.dropWhile_cons, hx, ih2.1, ih2.2]

theorem splitSlash_cons_slash (cs : Str) : splitSlash ('/' :: cs) = [] :: splitSlash cs := rfl

theorem splitSlash_cons_ne (c : Char) (cs : Str) (hc : c ≠ '/') :
    splitSlash (c :: cs) =
      match splitSlash cs with
      | [] => [[c]]
      | g :: gs => (c :: g) :: gs := by
  rw [splitSlash.eq_def]
  cases cs <;> cases c <;> simp_all

theorem splitSlash_ne_nil (s : Str) : splitSlash s ≠ [] := by
  induction s with
  | nil => simp [splitSlash]
  | cons c cs ih =>
    by_cases hc : c = '/'
    · subst hc; rw [splitSlash_cons_slash]; simp
    · rw [splitSlash_cons_ne c cs hc]
      cases h : splitSlash cs <;> simp

theorem splitSlash_append_cons (a b : Str) :
    splitSlash (a ++ '/' :: b) = splitSlash a ++ splitSlash b := by
  induction a with
  | nil => simp [splitSlash_cons_slash, splitSlash]
  | cons c cs ih =>
    by_cases hc : c = '/'
    · subst hc
      rw [List.cons_append, splitSlash_cons_slash, splitSlash_cons_slash, ih, List.cons_append]
    · rw [List.cons_append, splitSlash_cons_ne c _ hc, splitSlash_cons_ne c cs hc, ih]
      cases hcs : splitSlash cs with
      | nil => exact absurd hcs (splitSlash_ne_nil cs)
      | cons g gs => simp

theorem splitComps_append_cons (a b : Str) :
    splitComps (a ++ '/' :: b) = splitComps a ++ splitComps b := by
  unfold splitComps
  rw [splitSlash_append_cons, List.filter_append]

theorem mem_splitSlash_no_slash (s g : Str) (hg : g ∈ splitSlash s) : '/' ∉ g := by
  induction s generalizing g with
  | nil => simp [splitSlash] at hg; simp [hg]
  | cons c cs ih =>
    by_cases hc : c = '/'
    · subst hc
      simp only [splitSlash, List.mem_cons] at hg
      rcases hg with h | h
      · simp [h]
      · exact ih g h
    · rw [splitSlash_cons_ne c cs hc] at hg
      cases hcs : splitSlash cs with
      | nil => exact absurd hcs (splitSlash_ne_nil cs)
      | cons g0 gs =>
        rw [hcs] at hg
        simp only [List.mem_cons] at hg
        rcases hg with h | h
        · subst h
          intro hmem
          rcases List.mem_cons.mp hmem with h1 | h1
          · exact hc h1.symm
          · exact ih g0 (by rw [hcs]; exact List.mem_cons_self g0 gs) h1
        · exact ih g (by rw [hcs]; exact List.mem_cons_of_mem g0 h)

theorem mem_splitComps (s g : Str) (hg : g ∈ splitComps s) : g ≠ [] ∧ '/' ∉ g := by
  unfold splitComps at hg
  have := List.mem_filter.mp hg
  refine ⟨by simpa using this.2, mem_splitSlash_no_slash s g this.1⟩

theorem splitComps_nil : splitComps [] = [] := by
  simp [splitComps, splitSlash]

theorem splitComps_single (s : Str) (h : s ≠ []) (h2 : '/' ∉ s) : splitComps s = [s] := by
  have : splitSlash s = [s] := by
    induction s with
    | nil => simp at h
    | cons c cs ih =>
      have hc : c ≠ '/' := fun hcc => h2 (by simp [hcc])
      rw [splitSlash_cons_ne c cs hc]
      cases cs with
      | nil => simp [splitSlash]
      | cons d ds =>
        rw [ih (by simp) (fun hm => h2 (List.mem_cons_of_mem c hm))]
  simp [splitComps, this, h]

/-- The elements of a `normStep` fold are either elements of the initial
accumulator or non-`.`/`..` elements of the input. -/
theorem mem_foldl_normStep (cs : List Str) (init : List Str) (g : Str)
    (hg : g ∈ cs.foldl normStep init) : g ∈ init ∨ g ∈ cs := by
  induction cs generalizing init with
  | nil => exact Or.inl hg
  | cons c cs ih =>
    rw [List.foldl_cons] at hg
    rcases ih (normStep init c) hg with h | h
    · unfold normStep at h
      split at h
      · exact Or.inl h
      · split at h
        · exact Or.inl ((List.dropLast_sublist init).subset h)
        · rcases List.mem_append.mp h with h1 | h1
          · exact Or.inl h1
          · exact Or.inr (by simp at h1; simp [h1])
    · exact Or.inr (List.mem_cons_of_mem c h)

theorem mem_normAbs (cs : List Str) (g : Str) (hg : g ∈ normAbs cs) : g ∈ cs := by
  rcases mem_foldl_normStep cs [] g hg with h | h
  · simp at h
  · exact h

theorem foldl_normStep_append (l1 l2 : List Str) (init : List Str) :
    (l1 ++ l2).foldl normStep init = l2.foldl normStep (l1.foldl normStep init) :=
  List.foldl_append normStep init l1 l2

/-- Components of the base-relative path computed by `relpath` are
nonempty and slash-free. -/
theorem relpath_comps_ok (path start : Str) (g : Str)
    (hg : g ∈ List.replicate ((normAbs (splitComps start)).length -
        commonPrefixLen (normAbs (splitComps start)) (normAbs (splitComps path))) pardir ++
        (normAbs (splitComps path)).drop
          (commonPrefixLen (normAbs (splitComps start)) (normAbs (splitComps path)))) :
    g ≠ [] ∧ '/' ∉ g := by
  rcases List.mem_append.mp hg with h | h
  · rw [List.eq_of_mem_replicate h]
    refine ⟨by simp [pardir], by simp [pardir]⟩
  · have h2 : g ∈ normAbs (splitComps path) := List.drop_subset _ _ h
    exact mem_splitComps path g (mem_normAbs _ g h2)

theorem joinPath_ok (cs : List Str) (hne : cs ≠ [])
    (h : ∀ g ∈ cs, g ≠ [] ∧ '/' ∉ g) :
    joinPath cs ≠ [] ∧ (joinPath cs).getLast? ≠ some '/' := by
  induction cs with
  | nil => exact absurd rfl hne
  | cons c cs ih =>
    cases cs with
    | nil =>
      have hc := h c (by simp)
      constructor
      · simpa [joinPath] using hc.1
      · show c.getLast? ≠ some '/'
        intro hlast
        exact hc.2 (List.mem_of_getLast?_eq_some hlast)
    | cons d ds =>
      have ih2 := ih (by simp) (fun g hg => h g (List.mem_cons_of_mem c hg))
      have hjoin : joinPath (c :: d :: ds) = c ++ '/' :: joinPath (d :: ds) := rfl
      constructor
      · simp [hjoin]
      · rw [hjoin, List.getLast?_append]
        have : ('/' :: joinPath (d :: ds)).getLast? = (joinPath (d :: ds)).getLast? := by
          rw [show ('/' :: joinPath (d :: ds)) = ['/'] ++ joinPath (d :: ds) from rfl,
            List.getLast?_append]
          cases hj : (joinPath (d :: ds)).getLast? with
          | none => exact absurd (List.getLast?_eq_none_iff.mp hj) ih2.1
          | some x => simp
        rw [this]
        cases hj : (joinPath (d :: ds)).getLast? with
        | none => exact absurd (List.getLast?_eq_none_iff.mp hj) ih2.1
        | some x =>
          rw [hj] at ih2
          simpa using ih2.2

/-- `posixpath.relpath` never fails on a nonempty path, and its result is
a nonempty string with no trailing separator. -/
theorem relpath_ok (path start p : Str) (h : relpath path start = some p) :
    p ≠ [] ∧ p.getLast? ≠ some '/' := by
  unfold relpath at h
  split at h
  · exact absurd h (by simp)
  · set rl := List.replicate ((normAbs (splitComps start)).length -
      commonPrefixLen (normAbs (splitComps start)) (normAbs (splitComps path))) pardir ++
      (normAbs (splitComps path)).drop
        (commonPrefixLen (normAbs (splitComps start)) (normAbs (splitComps path))) with hrl
    by_cases hnil : rl = []
    · rw [if_pos hnil] at h
      cases h
      exact ⟨by simp [curdir], by simp [curdir]⟩
    · rw [if_neg hnil] at h
      cases h
      exact joinPath_ok rl hnil (fun g hg => relpath_comps_ok path start g (hrl ▸ hg))

theorem strLe_total (a b : Str) : strLe a b = true ∨ strLe b a = true := by
  induction a generalizing b with
  | nil => left; rfl
  | cons x xs ih =>
    cases b with
    | nil => right; rfl
    | cons y ys =>
      unfold strLe
      rcases lt_trichotomy x y with h | h | h
      · left; simp [h]
      · subst h
        simp only [lt_irrefl, if_false]
        exact ih ys
      · right; simp [h]

theorem strLe_trans (a b c : Str) (h1 : strLe a b = true) (h2 : strLe b c = true) :
    strLe a c = true := by
  induction a generalizing b c with
  | nil => rfl
  | cons x xs ih =>
    cases b with
    | nil => exact absurd h1 (by simp [strLe])
    | cons y ys =>
      cases c with
      | nil => exact absurd h2 (by simp [strLe])
      | cons z zs =>
        unfold strLe at h1 h2 ⊢
        by_cases hxy : x < y
        · by_cases hyz : y < z
          · simp [lt_trans hxy hyz]
          · by_cases hzy : z < y
            · exact absurd h2 (by simp [hyz, hzy])
            · have : y = z := le_antisymm (not_lt.mp hzy) (not_lt.mp hyz)
              subst this
              simp [hxy]
        · by_cases hyx : y < x
          · exact absurd h1 (by simp [hxy, hyx])
          · have hxy2 : x = y := le_antisymm (not_lt.mp hyx) (not_lt.mp hxy)
            subst hxy2
            simp only [lt_irrefl, if_false] at h1
            by_cases hyz : x < z
            · simp [hyz]
            · by_cases hzy : z < x
              · exact absurd h2 (by simp [hyz, hzy])
              · have : x = z := le_antisymm (not_lt.mp hzy) (not_lt.mp hyz)
                subst this
                simp only [lt_irrefl, if_false] at h2 ⊢
                exact ih ys zs h1 h2

instance : IsTotal FileInfo fileInfoLe :=
  ⟨fun a b => strLe_total a.path b.path⟩

instance : IsTrans FileInfo fileInfoLe :=
  ⟨fun a b c h1 h2 => strLe_trans a.path b.path c.path h1 h2⟩

theorem reMatchAbfss_eq_some_iff (netloc ns acct : Str) :
    reMatchAbfss netloc = some (ns, acct) ↔
      ns ≠ [] ∧ (∀ c ∈ ns, c ≠ '@') ∧ acct ≠ [] ∧ (∀ c ∈ acct, c ≠ '.') ∧
      ∃ rest, netloc = ns ++ '@' :: (acct ++ (domainSfx ++ rest)) := by
  constructor
  · intro h
    unfold reMatchAbfss at h
    split at h
    next r2 heq =>
      simp only [] at h
      split_ifs at h with hg1 hg2 hpre
      obtain ⟨hns, hacct⟩ := Prod.mk.injEq .. ▸ Option.some.inj h
      subst hns; subst hacct
      refine ⟨hg1, ?_, hg2, ?_, ?_⟩
      · intro c hc
        simpa using List.mem_takeWhile_imp hc
      · intro c hc
        simpa using List.mem_takeWhile_imp hc
      · obtain ⟨rest, hrest⟩ : ∃ rest,
            List.dropWhile (fun c => decide (c ≠ '.')) r2 = domainSfx ++ rest := by
          obtain ⟨t, ht⟩ := List.isPrefixOf_iff_prefix.mp hpre
          exact ⟨t, ht.symm⟩
        refine ⟨rest, ?_⟩
        calc netloc = List.takeWhile (fun c => decide (c ≠ '@')) netloc ++
              List.dropWhile (fun c => decide (c ≠ '@')) netloc :=
              (List.takeWhile_append_dropWhile _ _).symm
          _ = List.takeWhile (fun c => decide (c ≠ '@')) netloc ++ '@' :: r2 := by rw [heq]
          _ = List.takeWhile (fun c => decide (c ≠ '@')) netloc ++ '@' ::
                (List.takeWhile (fun c => decide (c ≠ '.')) r2 ++
                 List.dropWhile (fun c => decide (c ≠ '.')) r2) := by
              rw [List.takeWhile_append_dropWhile]
          _ = _ := by rw [hrest]
    next heq2 =>
      simp at h
  · rintro ⟨hns, hnsA, hacct, hacctD, rest, rfl⟩
    have h1 := takeWhile_append_cons (fun c => decide (c ≠ '@')) ns '@'
      (acct ++ (domainSfx ++ rest)) (fun x hx => by simp [hnsA x hx]) (by simp)
    have hsfx : domainSfx ++ rest = '.' :: (domainDotTail ++ rest) := rfl
    have h2 := takeWhile_append_cons (fun c => decide (c ≠ '.')) acct '.'
      (domainDotTail ++ rest) (fun x hx => by simp [hacctD x hx]) (by simp)
    unfold reMatchAbfss
    rw [h1.2]
    simp only [h1.1]
    rw [if_neg hns]
    rw [show acct ++ (domainSfx ++ rest) = acct ++ '.' :: (domainDotTail ++ rest) from rfl]
    rw [h2.1, if_neg hacct, h2.2]
    have hpre : List.isPrefixOf domainSfx ('.' :: (domainDotTail ++ rest)) = true :=
      List.isPrefixOf_iff_prefix.mpr ⟨rest, rfl⟩
    rw [if_pos hpre]

/-- Every entry produced by the listing loop comes from a backend entry
other than the listed directory itself, carrying that entry's
base-relative path. -/
theorem buildInfos_mem (base target : Str) (listing : List PathProps)
    (infos : List FileInfo) (h : buildInfos base target listing = .ok infos)
    (e : FileInfo) (he : e ∈ infos) :
    ∃ r ∈ listing, target ≠ r.name ∧
      ∃ p, relpath r.name base = some p ∧ e = infoOf r p := by
  induction listing generalizing infos with
  | nil =>
    unfold buildInfos at h
    cases h
    simp at he
  | cons r rs ih =>
    unfold buildInfos at h
    split at h
    · obtain ⟨r0, hr0, hne, p, hp, hep⟩ := ih infos h he
      exact ⟨r0, List.mem_cons_of_mem r hr0, hne, p, hp, hep⟩
    · next hne =>
      split at h
      · exact absurd h (by simp)
      · next p hp =>
        split at h
        · exact absurd h (by simp)
        · next infos0 hinfos0 =>
          cases h
          rcases List.mem_cons.mp he with he1 | he1
          · exact ⟨r, List.mem_cons_self r rs, hne, p, hp, he1⟩
          · obtain ⟨r0, hr0, hne0, p0, hp0, hep0⟩ := ih infos0 hinfos0 he1
            exact ⟨r0, List.mem_cons_of_mem r hr0, hne0, p0, hp0, hep0⟩

/-- `infoOf` of a base-relative path produced by `relpath`: the stored
path is exactly that relative path (never trailing-slash-stripped, since
`relpath` output never ends in a separator), the directory flag copies
the backend's, and a size is stored exactly for non-directories. -/
theorem infoOf_relpath (r : PathProps) (name base p : Str)
    (hp : relpath name base = some p) :
    (infoOf r p).path = p ∧ (infoOf r p).is_dir = r.is_directory ∧
      (infoOf r p).file_size = (if r.is_directory then none else some r.content_length) := by
  have hok := relpath_ok name base p hp
  unfold infoOf
  cases hdir : r.is_directory with
  | true => simp [hok.2]
  | false => simp

/-- Any valid-shaped ABFSS URI parses to its exact namespace, account and
leading-slash-stripped path. -/
theorem parse_abfss_uri_valid (ns acct p : Str) (hns : ns ≠ [])
    (hnsA : ∀ c ∈ ns, c ≠ '@') (hacct : acct ≠ []) (hacctD : ∀ c ∈ acct, c ≠ '.') :
    parse_abfss_uri ⟨"abfss".toList, ns ++ '@' :: (acct ++ domainSfx), p⟩ =
      .ok (ns, acct, if p.head? = some '/' then p.drop 1 else p) := by
  have hm : reMatchAbfss (ns ++ '@' :: (acct ++ domainSfx)) = some (ns, acct) := by
    rw [reMatchAbfss_eq_some_iff]
    exact ⟨hns, hnsA, hacct, hacctD, [], by simp⟩
  unfold parse_abfss_uri
  rw [if_neg (by simp)]
  simp only [hm]

/-- C9: for every argument value and every repository state,
`log_artifact` and `delete_artifacts` always fail with the
unsupported-operation error (`NotImplementedError`); neither ever
succeeds or fails with a different error kind. -/
theorem claim_C9 (repo : AzureDataLakeArtifactRepository) (local_file : Str)
    (artifact_path del_path : Option Str) :
    log_artifact repo local_file artifact_path = .error .notImplemented ∧
    delete_artifacts repo del_path = .error .notImplemented :=
  ⟨rfl, rfl⟩

/-- C7: the transfer timeout is resolved once at construction; it equals
the configured value when one is set (and not the falsy sentinel `0`),
and the fixed default of 600 seconds when the configuration is unset or
the non-positive sentinel `0`. -/
theorem claim_C7 (cfg : Option Int) (uri : ParsedURI)
    (repo : AzureDataLakeArtifactRepository) (h : repoInit cfg uri = .ok repo) :
    repo.write_timeout = resolveWriteTimeout cfg ∧
    (∀ v : Int, cfg = some v → v ≠ 0 → repo.write_timeout = v) ∧
    ((cfg = none ∨ cfg = some 0) → repo.write_timeout = 600) := by
  unfold repoInit at h
  split at h
  · exact absurd h (by simp)
  · cases h
    refine ⟨rfl, ?_, ?_⟩
    · rintro v rfl hv
      simp [resolveWriteTimeout, hv]
    · rintro (rfl | rfl) <;> simp [resolveWriteTimeout]

theorem claim_C7_witness :
    repoInit (some 5) ⟨"abfss".toList, "fs@acct.dfs.core.windows.net".toList, "/r".toList⟩ =
      .ok ⟨5, "fs".toList, "acct".toList, "r".toList⟩ ∧
    (⟨5, "fs".toList, "acct".toList, "r".toList⟩ :
      AzureDataLakeArtifactRepository).write_timeout = 5 :=
  ⟨rfl,
   (claim_C7 (some 5) ⟨"abfss".toList, "fs@acct.dfs.core.windows.net".toList, "/r".toList⟩
      ⟨5, "fs".toList, "acct".toList, "r".toList⟩ rfl).2.1 5 rfl (by decide)⟩

/-- C3: for every URI of the valid form
`abfss://<namespace>@<account>.dfs.core.windows.net/<path>`, parsing
returns the namespace and account exactly as they stand in the
authority, and the path component with a single leading slash stripped
when present and otherwise verbatim — in particular with no
normalisation of `..` (the path `p` below is arbitrary). -/
theorem claim_C3 (ns acct p : Str) (hns : ns ≠ [])
    (hnsA : ∀ c ∈ ns, c ≠ '@') (hacct : acct ≠ []) (hacctD : ∀ c ∈ acct, c ≠ '.') :
    parse_abfss_uri ⟨"abfss".toList, ns ++ '@' :: (acct ++ domainSfx), p⟩ =
      .ok (ns, acct, if p.head? = some '/' then p.drop 1 else p) :=
  parse_abfss_uri_valid ns acct p hns hnsA hacct hacctD

theorem claim_C3_witness :
    parse_abfss_uri ⟨"abfss".toList,
        "fs".toList ++ '@' :: ("acct".toList ++ domainSfx), "/a/../b".toList⟩ =
      .ok ("fs".toList, "acct".toList, "a/../b".toList) := by
  rw [claim_C3 "fs".toList "acct".toList "/a/../b".toList (by decide) (by decide)
    (by decide) (by decide)]
  rfl

/-- C10: a valid-shaped URI whose path component is empty or the single
character `/` is accepted, yielding an empty base path, and repository
construction succeeds with that empty base path. -/
theorem claim_C10 (ns acct : Str) (hns : ns ≠ [])
    (hnsA : ∀ c ∈ ns, c ≠ '@') (hacct : acct ≠ []) (hacctD : ∀ c ∈ acct, c ≠ '.')
    (cfg : Option Int) :
    parse_abfss_uri ⟨"abfss".toList, ns ++ '@' :: (acct ++ domainSfx), []⟩ =
      .ok (ns, acct, []) ∧
    parse_abfss_uri ⟨"abfss".toList, ns ++ '@' :: (acct ++ domainSfx), ['/']⟩ =
      .ok (ns, acct, []) ∧
    ∃ repo, repoInit cfg ⟨"abfss".toList, ns ++ '@' :: (acct ++ domainSfx), ['/']⟩ =
        .ok repo ∧ repo.base_data_lake_directory = [] := by
  have h1 := parse_abfss_uri_valid ns acct [] hns hnsA hacct hacctD
  have h2 := parse_abfss_uri_valid ns acct ['/'] hns hnsA hacct hacctD
  simp only [List.head?_nil, List.head?_cons, if_pos rfl, List.drop_nil] at h1 h2
  refine ⟨by simpa using h1, by simpa using h2, ?_⟩
  refine ⟨⟨resolveWriteTimeout cfg, ns, acct, []⟩, ?_, rfl⟩
  unfold repoInit
  rw [show parse_abfss_uri ⟨"abfss".toList, ns ++ '@' :: (acct ++ domainSfx), ['/']⟩ =
    .ok (ns, acct, []) from by simpa using h2]

theorem claim_C10_witness :
    parse_abfss_uri ⟨"abfss".toList,
        "fs".toList ++ '@' :: ("acct".toList ++ domainSfx), []⟩ =
      .ok ("fs".toList, "acct".toList, []) ∧
    ∃ repo, repoInit none ⟨"abfss".toList,
        "fs".toList ++ '@' :: ("acct".toList ++ domainSfx), ['/']⟩ =
        .ok repo ∧ repo.base_data_lake_directory = [] := by
  have h := claim_C10 "fs".toList "acct".toList (by decide) (by decide) (by decide)
    (by decide) none
  exact ⟨h.1, h.2.2⟩

/-- Modelled from the spec: an authority exactly of the shape
`<namespace>@<account>.<fixed-domain-suffix>` — namespace one or more
non-`@` characters, account the characters up to the first `.`, then the
fixed domain suffix and nothing after it. -/
def authorityExact (netloc : Str) : Prop :=
  ∃ ns acct, ns ≠ [] ∧ (∀ c ∈ ns, c ≠ '@') ∧ acct ≠ [] ∧ (∀ c ∈ acct, c ≠ '.') ∧
    netloc = ns ++ '@' :: (acct ++ domainSfx)

/-- The authority shape the code actually accepts: the exact shape may be
followed by arbitrary trailing characters, because `re.match` anchors the
pattern only at the start of the authority string. -/
def authorityAtStart (netloc : Str) : Prop :=
  ∃ ns acct rest, ns ≠ [] ∧ (∀ c ∈ ns, c ≠ '@') ∧ acct ≠ [] ∧ (∀ c ∈ acct, c ≠ '.') ∧
    netloc = ns ++ '@' :: (acct ++ (domainSfx ++ rest))

theorem reMatchAbfss_isSome_iff (netloc : Str) :
    (∃ pr, reMatchAbfss netloc = some pr) ↔ authorityAtStart netloc := by
  constructor
  · rintro ⟨⟨ns, acct⟩, h⟩
    obtain ⟨hns, hnsA, hacct, hacctD, rest, hrest⟩ :=
      (reMatchAbfss_eq_some_iff netloc ns acct).mp h
    exact ⟨ns, acct, rest, hns, hnsA, hacct, hacctD, hrest⟩
  · rintro ⟨ns, acct, rest, hns, hnsA, hacct, hacctD, hrest⟩
    exact ⟨(ns, acct),
      (reMatchAbfss_eq_some_iff netloc ns acct).mpr
        ⟨hns, hnsA, hacct, hacctD, rest, hrest⟩⟩

theorem authorityAtStart_has_at (netloc : Str) (h : authorityAtStart netloc) :
    '@' ∈ netloc := by
  obtain ⟨ns, acct, rest, _, _, _, _, rfl⟩ := h
  simp

/-- C4 counterexample: the claim demands that only authorities exactly of
the shape `<namespace>@<account>.<fixed-domain-suffix>` are accepted, but
`re.match` does not anchor the end of the pattern, so an authority with
trailing garbage after the fixed domain suffix is accepted as well. -/
theorem claim_C4_counterexample :
    parse_abfss_uri ⟨"abfss".toList,
        "fs@acct.dfs.core.windows.netEXTRA".toList, "/p".toList⟩ =
      .ok ("fs".toList, "acct".toList, "p".toList) ∧
    ¬ authorityExact "fs@acct.dfs.core.windows.netEXTRA".toList := by
  refine ⟨rfl, ?_⟩
  rintro ⟨ns, acct, hns, hnsA, hacct, hacctD, heq⟩
  have hm : reMatchAbfss "fs@acct.dfs.core.windows.netEXTRA".toList = some (ns, acct) :=
    (reMatchAbfss_eq_some_iff _ ns acct).mpr
      ⟨hns, hnsA, hacct, hacctD, [], by simpa using heq⟩
  have hm2 : reMatchAbfss "fs@acct.dfs.core.windows.netEXTRA".toList =
      some ("fs".toList, "acct".toList) := rfl
  rw [hm2] at hm
  obtain ⟨hns2, hacct2⟩ := Prod.mk.injEq .. ▸ Option.some.inj hm.symm
  subst hns2; subst hacct2
  exact absurd heq (by decide)

/-- C4 (amended): parsing succeeds iff the URI's scheme is the fixed
`abfss` and its authority STARTS WITH the shape
`<namespace>@<account>.<fixed-domain-suffix>` (arbitrary trailing
characters after the suffix are also accepted, since the authority
pattern is matched only at the start); a wrong scheme fails with the
scheme error, a non-matching authority with the authority error, and a
failure returns no partial result. -/
theorem claim_C4_amended (uri : ParsedURI) :
    ((∃ res, parse_abfss_uri uri = .ok res) ↔
      (uri.scheme = "abfss".toList ∧ authorityAtStart uri.netloc)) ∧
    (uri.scheme ≠ "abfss".toList →
      parse_abfss_uri uri = .error .notAbfssScheme) ∧
    (uri.scheme = "abfss".toList → ¬ authorityAtStart uri.netloc →
      parse_abfss_uri uri = .error .invalidAbfssAuthority) := by
  by_cases hs : uri.scheme = "abfss".toList
  · unfold parse_abfss_uri
    rw [if_neg (not_not_intro hs)]
    cases hm : reMatchAbfss uri.netloc with
    | none =>
      refine ⟨?_, fun habs => absurd hs habs, fun _ _ => rfl⟩
      constructor
      · rintro ⟨res, hres⟩
        exact absurd hres (by simp)
      · rintro ⟨-, hAS⟩
        obtain ⟨pr, hpr⟩ := (reMatchAbfss_isSome_iff uri.netloc).mpr hAS
        rw [hm] at hpr
        exact absurd hpr (by simp)
    | some pr =>
      obtain ⟨ns, acct⟩ := pr
      refine ⟨?_, fun habs => absurd hs habs, ?_⟩
      · constructor
        · rintro -
          exact ⟨hs, (reMatchAbfss_isSome_iff uri.netloc).mp ⟨(ns, acct), hm⟩⟩
        · rintro -
          exact ⟨(ns, acct,
            if uri.path.head? = some '/' then uri.path.drop 1 else uri.path), rfl⟩
      · intro _ hnAS
        exact absurd ((reMatchAbfss_isSome_iff uri.netloc).mp ⟨(ns, acct), hm⟩) hnAS
  · unfold parse_abfss_uri
    rw [if_pos hs]
    refine ⟨?_, fun _ => rfl, fun habs => absurd habs hs⟩
    constructor
    · rintro ⟨res, hres⟩
      exact absurd hres (by simp)
    · rintro ⟨habs, -⟩
      exact absurd habs hs

theorem claim_C4_witness :
    parse_abfss_uri ⟨"http".toList,
        "fs@acct.dfs.core.windows.net".toList, "/p".toList⟩ =
      .error .notAbfssScheme ∧
    parse_abfss_uri ⟨"abfss".toList,
        "acct.dfs.core.windows.net".toList, "/p".toList⟩ =
      .error .invalidAbfssAuthority :=
  ⟨(claim_C4_amended ⟨"http".toList,
      "fs@acct.dfs.core.windows.net".toList, "/p".toList⟩).2.1 (by decide),
   (claim_C4_amended ⟨"abfss".toList,
      "acct.dfs.core.windows.net".toList, "/p".toList⟩).2.2 rfl
     (fun h => absurd (authorityAtStart_has_at _ h) (by decide))⟩

/-- Every entry in a successful `list_artifacts` result arises from a
backend entry other than the listed directory itself, as `infoOf` of its
base-relative path. -/
theorem list_artifacts_mem (base : Str) (path : Option Str) (listing : List PathProps)
    (out : List FileInfo) (h : list_artifacts base path listing = .ok out)
    (e : FileInfo) (he : e ∈ out) :
    ∃ r ∈ listing, joinIfTruthy base path ≠ r.name ∧
      ∃ p, relpath r.name base = some p ∧ e = infoOf r p := by
  unfold list_artifacts at h
  simp only [] at h
  split at h
  · exact absurd h (by simp)
  · next infos hinfos =>
    split at h
    · cases h
      simp at he
    · cases h
      have he2 : e ∈ infos := by simpa using he
      exact buildInfos_mem base _ listing infos hinfos e he2

/-- C5: the sequence returned by `list_artifacts` never contains an
entry derived from a backend entry whose absolute path equals the queried
target directory: every returned entry comes from a backend entry whose
name differs from the target, i.e. self-referential entries are
discarded. -/
theorem claim_C5 (base : Str) (path : Option Str) (listing : List PathProps)
    (out : List FileInfo) (h : list_artifacts base path listing = .ok out)
    (e : FileInfo) (he : e ∈ out) :
    ∃ r ∈ listing, joinIfTruthy base path ≠ r.name ∧
      ∃ p, relpath r.name base = some p ∧ e = infoOf r p :=
  list_artifacts_mem base path listing out h e he

theorem claim_C5_witness :
    ∃ r ∈ [(⟨"base/d".toList, false, 3⟩ : PathProps),
           ⟨"base/d/f".toList, false, 3⟩],
      joinIfTruthy "base".toList (some "d".toList) ≠ r.name ∧
      ∃ p, relpath r.name "base".toList = some p ∧
        (⟨"d/f".toList, false, some 3⟩ : FileInfo) = infoOf r p := by
  refine claim_C5 "base".toList (some "d".toList)
    [⟨"base/d".toList, false, 3⟩, ⟨"base/d/f".toList, false, 3⟩]
    [⟨"d/f".toList, false, some 3⟩] rfl ⟨"d/f".toList, false, some 3⟩ (by simp)

/-- C6: every entry returned by `list_artifacts` satisfies the
`ArtifactEntry` invariant: its size is present iff it is not a directory,
its path is nonempty with no trailing slash (even for directories), and
its path is the `relpath` of some backend entry's absolute name relative
to the base path (not relative to the queried target directory). -/
theorem claim_C6 (base : Str) (path : Option Str) (listing : List PathProps)
    (out : List FileInfo) (h : list_artifacts base path listing = .ok out)
    (e : FileInfo) (he : e ∈ out) :
    (e.file_size.isSome ↔ e.is_dir = false) ∧
    e.path ≠ [] ∧ e.path.getLast? ≠ some '/' ∧
    ∃ r ∈ listing, relpath r.name base = some e.path ∧
      (e.is_dir = false → e.file_size = some r.content_length) := by
  obtain ⟨r, hr, -, p, hp, rfl⟩ := list_artifacts_mem base path listing out h e he
  obtain ⟨hpath, hdir, hsize⟩ := infoOf_relpath r r.name base p hp
  have hrp := relpath_ok r.name base p hp
  refine ⟨?_, ?_, ?_, r, hr, ?_, ?_⟩
  · rw [hdir, hsize]
    cases r.is_directory <;> simp
  · rw [hpath]; exact hrp.1
  · rw [hpath]; exact hrp.2
  · rw [hpath]; exact hp
  · intro hfd
    rw [hdir] at hfd
    rw [hsize, if_neg (by rw [hfd]; exact fun hc => Bool.noConfusion hc)]

theorem claim_C6_witness :
    ((⟨"d/sub".toList, true, none⟩ : FileInfo).file_size.isSome ↔
      (⟨"d/sub".toList, true, none⟩ : FileInfo).is_dir = false) ∧
    (⟨"d/sub".toList, true, none⟩ : FileInfo).path ≠ [] ∧
    (⟨"d/sub".toList, true, none⟩ : FileInfo).path.getLast? ≠ some '/' ∧
    ∃ r ∈ [(⟨"base/d/sub/".toList, true, 0⟩ : PathProps)],
      relpath r.name "base".toList = some (⟨"d/sub".toList, true, none⟩ : FileInfo).path ∧
      ((⟨"d/sub".toList, true, none⟩ : FileInfo).is_dir = false →
        (⟨"d/sub".toList, true, none⟩ : FileInfo).file_size = some r.content_length) :=
  claim_C6 "base".toList (some "d".toList) [⟨"base/d/sub/".toList, true, 0⟩]
    [⟨"d/sub".toList, true, none⟩] rfl ⟨"d/sub".toList, true, none⟩ (by simp)

/-- C8: a successful `list_artifacts` result is always sorted ascending
by the entries' relative path, lexicographically on the path string as a
sequence of code points, whatever order the backend returned the
entries in. -/
theorem claim_C8 (base : Str) (path : Option Str) (listing : List PathProps)
    (out : List FileInfo) (h : list_artifacts base path listing = .ok out) :
    out.Sorted fileInfoLe := by
  unfold list_artifacts at h
  simp only [] at h
  split at h
  · exact absurd h (by simp)
  · split at h
    · cases h
      exact List.sorted_nil
    · cases h
      exact List.sorted_insertionSort fileInfoLe _

theorem claim_C8_witness :
    ([⟨"d/a".toList, true, none⟩, ⟨"d/z".toList, false, some 7⟩] :
      List FileInfo).Sorted fileInfoLe :=
  claim_C8 "base".toList (some "d".toList)
    [⟨"base/d/z".toList, false, 7⟩, ⟨"base/d/a".toList, true, 0⟩]
    [⟨"d/a".toList, true, none⟩, ⟨"d/z".toList, false, some 7⟩] rfl

/-- C1: when listing a relative path that addresses a single file — the
backend produced exactly one entry, it is not a directory, and its
base-relative path equals the requested relative path (which is the
target directory stripped of the base-path prefix) — the result is the
empty sequence, not a one-element sequence containing the file itself. -/
theorem claim_C1 (base rel : Str) (r : PathProps)
    (hbase : base ≠ []) (hbase2 : base.getLast? ≠ some '/')
    (hrel : rel ≠ []) (hrel2 : rel.head? ≠ some '/')
    (hdir : r.is_directory = false)
    (hp : relpath r.name base = some rel) :
    list_artifacts base (some rel) [r] = .ok [] := by
  have htarget : joinIfTruthy base (some rel) = base ++ '/' :: rel := by
    unfold joinIfTruthy posixJoin
    simp only []
    rw [if_pos hrel, if_neg hrel2, if_neg hbase, if_neg hbase2]
  have hdrop : (base ++ '/' :: rel).drop (base.length + 1) = rel := by
    rw [show base ++ '/' :: rel = (base ++ ['/']) ++ rel by simp]
    rw [show base.length + 1 = (base ++ ['/']).length by simp]
    exact List.drop_left _ _
  unfold list_artifacts
  simp only [htarget]
  by_cases hname : base ++ '/' :: rel = r.name
  · have hb : buildInfos base (base ++ '/' :: rel) [r] = .ok [] := by
      unfold buildInfos
      rw [if_pos hname]
      rfl
    rw [hb]
    simp [singleFileCheck, List.insertionSort]
  · have hb : buildInfos base (base ++ '/' :: rel) [r] = .ok [infoOf r rel] := by
      unfold buildInfos
      rw [if_neg hname, hp]
      rfl
    rw [hb]
    have hinfo : infoOf r rel = ⟨rel, false, some r.content_length⟩ := by
      unfold infoOf
      rw [hdir]
      simp
    simp only [hinfo, hdrop, singleFileCheck]
    simp

theorem claim_C1_witness :
    list_artifacts "base".toList (some "f.txt".toList)
      [⟨"base/f.txt".toList, false, 7⟩] = .ok [] :=
  claim_C1 "base".toList "f.txt".toList ⟨"base/f.txt".toList, false, 7⟩
    (by decide) (by decide) (by decide) (by decide) rfl (by decide)

/-- The normalised posix components of a path string: two strings with
the same `pathComps` address the same backend object. -/
def pathComps (s : Str) : List Str := normAbs (splitComps s)

/-- Modelled from the spec: the walked file's path relative to the
source directory.  `os.walk` visits the source directory itself under
the relative name `.`, where a file's source-relative path is just its
name; deeper files live at their directory's relative path joined with
their name. -/
def sourceRelPath (f : LocalFile) : Str :=
  if f.rel_root = curdir then f.name else posixJoin f.rel_root f.name

theorem splitComps_posixJoin (a b : Str) (hb : b.head? ≠ some '/') :
    splitComps (posixJoin a b) = splitComps a ++ splitComps b := by
  unfold posixJoin
  rw [if_neg hb]
  by_cases ha : a = []
  · subst ha
    simp [splitComps_nil]
  · rw [if_neg ha]
    by_cases hlast : a.getLast? = some '/'
    · rw [if_pos hlast]
      have hsplit : a.dropLast ++ ['/'] = a := List.dropLast_append_getLast? '/' hlast
      conv_lhs => rw [← hsplit]
      rw [List.append_assoc]
      rw [show (['/'] : List Char) ++ b = '/' :: b from rfl]
      rw [splitComps_append_cons]
      conv_rhs => rw [← hsplit]
      rw [show (['/'] : List Char) = '/' :: ([] : List Char) from rfl,
        splitComps_append_cons, splitComps_nil, List.append_nil]
    · rw [if_neg hlast]
      exact splitComps_append_cons a b

theorem normAbs_append_curdir (S N : List Str) :
    normAbs (S ++ curdir :: N) = normAbs (S ++ N) := by
  unfold normAbs
  rw [List.foldl_append, List.foldl_append, List.foldl_cons]
  congr 1

/-- The backend path actually addressed for a walked file and the
destination the spec describes have the same normalised components. -/
theorem client_path_comps (dest : Str) (f : LocalFile) :
    pathComps (posixJoin dest (posixJoin f.rel_root f.name)) =
      pathComps (posixJoin dest (sourceRelPath f)) := by
  unfold sourceRelPath
  by_cases hroot : f.rel_root = curdir
  · rw [if_pos hroot, hroot]
    by_cases hn : f.name.head? = some '/'
    · rw [show posixJoin curdir f.name = f.name from by
        unfold posixJoin; rw [if_pos hn]]
    · rw [show posixJoin curdir f.name = curdir ++ '/' :: f.name from by
        unfold posixJoin; rw [if_neg hn]; simp [curdir]]
      unfold pathComps
      rw [splitComps_posixJoin dest _ (by simp [curdir]),
        splitComps_posixJoin dest f.name hn]
      rw [splitComps_append_cons curdir f.name,
        splitComps_single curdir (by decide) (by decide)]
      exact normAbs_append_curdir (splitComps dest) (splitComps f.name)
  · rw [if_neg hroot]

/-- C2: every regular file found by the walk of the source directory is
written to the backend at the destination root (base path joined with
the destination subpath when truthy) joined with the file's path
relative to the source directory — path equality taken on normalised
posix components, since the walk addresses top-level files as
`./<name>`; zero-length files are created as empty file objects and
non-empty files are uploaded with `overwrite=True`. -/
theorem claim_C2 (base : Str) (artifact_path : Option Str) (files : List LocalFile)
    (f : LocalFile) (hf : f ∈ files) :
    ∃ op ∈ log_artifacts base artifact_path files,
      pathComps op.path =
        pathComps (posixJoin (joinIfTruthy base artifact_path) (sourceRelPath f)) ∧
      (f.size = 0 → op = .create_file op.path) ∧
      (f.size ≠ 0 → op = .upload_data op.path true) := by
  by_cases hsz : f.size = 0
  · refine ⟨DataLakeOp.create_file
      (posixJoin (joinIfTruthy base artifact_path) (posixJoin f.rel_root f.name)),
      ?_, ?_, fun _ => rfl, fun hne => absurd hsz hne⟩
    · unfold log_artifacts
      simp only []
      exact List.mem_map.mpr ⟨f, hf, by simp [hsz]⟩
    · exact client_path_comps (joinIfTruthy base artifact_path) f
  · refine ⟨DataLakeOp.upload_data
      (posixJoin (joinIfTruthy base artifact_path) (posixJoin f.rel_root f.name)) true,
      ?_, ?_, fun heq => absurd heq hsz, fun _ => rfl⟩
    · unfold log_artifacts
      simp only []
      exact List.mem_map.mpr ⟨f, hf, by simp [hsz]⟩
    · exact client_path_comps (joinIfTruthy base artifact_path) f

theorem claim_C2_witness :
    ∃ op ∈ log_artifacts "b".toList none [⟨curdir, ['x'], 0⟩],
      pathComps op.path =
        pathComps (posixJoin (joinIfTruthy "b".toList none)
          (sourceRelPath ⟨curdir, ['x'], 0⟩)) ∧
      ((⟨curdir, ['x'], 0⟩ : LocalFile).size = 0 → op = .create_file op.path) ∧
      ((⟨curdir, ['x'], 0⟩ : LocalFile).size ≠ 0 → op = .upload_data op.path true) :=
  claim_C2 "b".toList none [⟨curdir, ['x'], 0⟩] ⟨curdir, ['x'], 0⟩ (by simp)
